import Mathlib

/-!
Verification of the core of the `fann` approximate-nearest-neighbor library.

The Rust source is shallowly embedded here.  `DistanceCmp` (src/base.rs)
wraps a finite `f64` scalar used only through comparison, addition and
subtraction; it is modelled as an element of a linearly ordered additive
commutative group `α` (concrete developments below use `ℤ`).  The f64
infinity sentinel used by `centroid` and the streaming `max_dist` is
modelled with `WithTop α` where it occurs.  Distance kernels are abstract
functions (`d : Nat → Nat → α` over corpus indices, the query being one
designated index), mirroring the generic `Distance` trait.  Rust code
that panics (usize underflow followed by an out-of-bounds index) is
modelled with `Option`, `none` meaning a panic.  Recursive procedures
whose Rust termination argument is extrinsic (tree recursion over
clusters, child iteration) take an explicit fuel argument; exhausted fuel
returns the accumulator unchanged and concrete evaluations are run with
ample fuel.  The k-medoid loop needs no artificial fuel: its `rounds`
counter is the source's own.
-/

namespace Fann

variable {α : Type} [LinearOrderedAddCommGroup α]

/-! ### `DistanceCmp` (src/base.rs)

`DistanceCmp` wraps an `f64` with total-order comparison (`total_cmp`).
`combine` applies a binary map to the two wrapped scalars. -/

/-- `DistanceCmp::combine(self, other, map)` from src/base.rs. -/
def distCombine (a b : α) (map : α → α → α) : α := map a b

/-- The outer-case child estimate of the searches
(`own_dist.combine(&child.center_dist, |own, center| own - center)`,
src/fann/kmed.rs line 192 and src/fann/algo.rs line 240): a plain,
non-saturating subtraction. -/
def cDistEst (own center : α) : α := distCombine own center (fun own center => own - center)

/-- The inner-case lower bound `get_dist_min`
(`dist.combine(&self.radius, |d, radius| f64::max(0.0, d - radius))`,
src/fann/kmed.rs lines 92-107): subtraction clamped below at zero. -/
def distMinVal (dist radius : α) : α := distCombine dist radius (fun d radius => max 0 (d - radius))

/-! ### List helpers used by the embedding -/

/-- Insert a pair into a list sorted ascending by its second component,
after any existing equal keys (models `Vec::insert` at the position found
by `binary_search_by` in `add_node`). -/
def insertSorted (x : Nat × α) : List (Nat × α) → List (Nat × α)
  | [] => [x]
  | y :: ys => if x.2 < y.2 then x :: y :: ys else y :: insertSorted x ys

/-- Insertion step for `sortByKey`. -/
def insertByKey {β : Type} (key : β → α) (x : β) : List β → List β
  | [] => [x]
  | y :: ys => if key x ≤ key y then x :: y :: ys else y :: insertByKey key x ys

/-- Stable insertion sort ascending by a scalar key (models
`sort_unstable_by` on a `DistanceCmp` key). -/
def sortByKey {β : Type} (key : β → α) : List β → List β
  | [] => []
  | x :: xs => insertByKey key x (sortByKey key xs)

/-- Stable insertion step for descending order settling ties in favor of
the earlier element. -/
def insertByKeyDesc {β : Type} (key : β → α) (x : β) : List β → List β
  | [] => [x]
  | y :: ys => if key y ≤ key x then x :: y :: ys else y :: insertByKeyDesc key x ys

/-- Stable insertion sort descending by a scalar key (models the
`sort_unstable_by(... .reverse())` on `center_dist` in `add_child`). -/
def sortByKeyDesc {β : Type} (key : β → α) : List β → List β
  | [] => []
  | x :: xs => insertByKeyDesc key x (sortByKeyDesc key xs)

/-- Maximum of a list of scalars, `none` on the empty list (models
`Iterator::max`). -/
def listMax : List α → Option α
  | [] => none
  | x :: xs => match listMax xs with
    | none => some x
    | some m => some (max x m)

/-! ### Tree nodes (src/fann/kmed.rs)

```rust
struct Child { node: Node, center_dist: DistanceCmp }
struct Node { centroid_index: usize, radius: DistanceCmp, count: usize,
              children: Vec<Child> }
```
A child is a pair `(node, center_dist)`. -/

/-- The tree node of src/fann/kmed.rs. -/
inductive Node (α : Type) : Type where
  | mk (centroidIndex : Nat) (radius : α) (count : Nat) (children : List (Node α × α)) : Node α

/-- `Node::centroid_index`. -/
def Node.centroidIndex : Node α → Nat
  | .mk c _ _ _ => c

/-- `Node::radius`. -/
def Node.radius : Node α → α
  | .mk _ r _ _ => r

/-- `Node::count` (number of descendants, root included). -/
def Node.countField : Node α → Nat
  | .mk _ _ k _ => k

/-- `Node::children` as `(node, center_dist)` pairs. -/
def Node.children : Node α → List (Node α × α)
  | .mk _ _ _ cs => cs

/-- `Node::new(centroid_index)`: a fresh leaf. -/
def Node.new (α : Type) [LinearOrderedAddCommGroup α] (centroidIndex : Nat) : Node α :=
  .mk centroidIndex 0 1 []

/-- `x` is the centroid index of some node in the subtree rooted at the
given node. -/
inductive InSubtree : Node α → Nat → Prop where
  | self (n : Node α) : InSubtree n n.centroidIndex
  | child {n c : Node α} {cd : α} {x : Nat} :
      (c, cd) ∈ n.children → InSubtree c x → InSubtree n x

/-- `m` is a node of the subtree rooted at `n` (reflexive-transitive
closure of the child relation). -/
inductive SubNode : Node α → Node α → Prop where
  | refl (n : Node α) : SubNode n n
  | child {n c m : Node α} {cd : α} :
      (c, cd) ∈ n.children → SubNode m c → SubNode m n

/-! ### Branch-and-bound search, recursive form
(`Node::get_closest`, src/fann/kmed.rs lines 149-212)

The result buffer `res` is a vector of `(index, DistanceCmp)` pairs kept
sorted ascending by distance.  `max_dist` indexes
`res[count.min(res.len()) - 1]`; when `count.min(res.len()) = 0` the
usize subtraction underflows and the indexing panics, which we model as
`none`. -/

/-- `max_dist(res, count)` of `Node::get_closest` (src/fann/kmed.rs lines
165-168): `res[count.min(res.len()) - 1].1`, `none` modelling the panic
when `count.min(res.len()) = 0`. -/
def maxDist (res : List (Nat × α)) (count : Nat) : Option α :=
  match min count res.length with
  | 0 => none
  | i + 1 => (res.get? i).map Prod.snd

/-- `add_node(res, node, distance, count)` (src/fann/kmed.rs lines
170-183): binary-search insert keeping `res` sorted, then truncate to
`count`. -/
def addNode (res : List (Nat × α)) (ix : Nat) (distance : α) (count : Nat) :
    List (Nat × α) :=
  (insertSorted (ix, distance) res).take count

/-- The body of `Node::get_closest` before the child loops: add the node's
own distance when the buffer is not full or the distance beats the cutoff
(src/fann/kmed.rs lines 185-187). -/
def getClosestStep (res : List (Nat × α)) (cix : Nat) (own : α) (count : Nat) :
    Option (List (Nat × α)) :=
  if res.length < count then some (addNode res cix own count)
  else match maxDist res count with
    | none => none
    | some md => some (if own < md then addNode res cix own count else res)

/-- The child loops of `Node::get_closest` (src/fann/kmed.rs lines
190-197 and 205-210).  Both loops walk a list of children paired with a
threshold (`c_dist_est` in the outer case, `c_min` in the inner case),
skip a child when `max_dist(res, count)` is below its threshold
(`continue`) and otherwise recurse into it via `rec`, threading the
result buffer. -/
def childLoop (rec : Node α → List (Nat × α) → Option (List (Nat × α)))
    (count : Nat) : List (Node α × α) → List (Nat × α) → Option (List (Nat × α))
  | [], res => some res
  | (c, t) :: rest, res =>
    match maxDist res count with
    | none => none
    | some md =>
      if md < t then childLoop rec count rest res
      else match rec c res with
        | none => none
        | some res2 => childLoop rec count rest res2

/-- `Node::get_closest(res, count, provider, cache, info)`
(src/fann/kmed.rs lines 149-212), specialised to the no-op local cache, so
`get_dist` is the kernel distance `dq` from the query to a centroid.
In the outer case each child's `c_dist_est = own - center_dist` depends
only on loop-invariant data, so it is paired with the child up front.
`fuel` only bounds the recursion depth; exhausted fuel returns the buffer
unchanged and never occurs at the ample values used below. -/
def getClosestF (dq : Nat → α) (count : Nat) :
    Nat → Node α → List (Nat × α) → Option (List (Nat × α))
  | 0, _, res => some res
  | fuel + 1, n, res =>
    let own := dq n.centroidIndex
    match getClosestStep res n.centroidIndex own count with
    | none => none
    | some res1 =>
      if n.radius < own then
        childLoop (fun c r => getClosestF dq count fuel c r) count
          (n.children.map fun child => (child.1, cDistEst own child.2)) res1
      else
        childLoop (fun c r => getClosestF dq count fuel c r) count
          (sortByKey Prod.snd
            (n.children.map fun child =>
              (child.1, distMinVal (dq child.1.centroidIndex) child.1.radius)))
          res1

/-- A fuel amount sufficient for `getClosestF` on this node: one more
than the node's descendant count (the recursion consumes one unit per
nesting level; exhaustion only truncates the search and never occurs on
trees whose `count` field is accurate). -/
def Node.fuel (n : Node α) : Nat := n.countField + 1

/-- `FannTree::get_closest(count, provider, cache, info)`
(src/fann/kmed.rs lines 617-636) minus the final monotone
`finalize_distance` map, which does not affect indices or order:
run the recursive search from the root with an empty buffer. -/
def treeGetClosest (dq : Nat → α) (root : Node α) (count : Nat) :
    Option (List (Nat × α)) :=
  getClosestF dq count root.fuel root []

/-! ### The streaming cutoff (src/fann/algo.rs lines 196-201)

```rust
fn max_dist(res: &Vec<(usize, DistanceCmp)>, count: usize) -> DistanceCmp {
    if res.len() < count { return DistanceCmp::inf(); }
    res[res.len() - 1].1
}
```
`DistanceCmp::inf()` is modelled as `⊤ : WithTop α`; the panic of
`res[res.len() - 1]` on an empty buffer (only reachable with `count = 0`)
as `none`. -/

/-- `max_dist` of `StreamingNeighbors::compute_closest` (src/fann/algo.rs
lines 196-201). -/
def maxDistStream (res : List (Nat × α)) (count : Nat) : Option (WithTop α) :=
  if res.length < count then some ⊤
  else match res.length with
    | 0 => none
    | i + 1 => (res.get? i).map fun p => ((p.2 : α) : WithTop α)

/-! ### Brute-force scan (src/distances/vec.rs lines 127-148)

`NearestNeighbors::get_closest` for `VecProvider`: pair every backing
embedding with its distance to the query, sort ascending, take `count`. -/

/-- The brute-force reference scan over corpus indices `0..n` with
query-to-index distances `dq`, as performed by
`VecProvider::get_closest`. -/
def bruteForce (dq : Nat → α) (n count : Nat) : List (Nat × α) :=
  (sortByKey Prod.snd ((List.range n).map fun ix => (ix, dq ix))).take count

/-! ### Tree construction (src/fann/kmed.rs lines 329-577)

The builder is embedded with the no-op pair cache (`NoCache`, one of the
two reference cache implementations; the cache is advisory), so
`get_dist(a, b)` is the kernel distance `d a b`. -/

/-- `FannTree::centroid(provider, all_ixs, cache, info)` (src/fann/kmed.rs
lines 347-385): 1-medoid with early exit.  The initial best distance
`DistanceCmp::of(f64::INFINITY)` is `⊤ : WithTop α`; the fold abandons a
candidate as soon as its running sum exceeds the best total.  Returns
`none` (panic of `res_ix.unwrap()`) on an empty candidate list. -/
def centroid (d : Nat → Nat → α) (allIxs : List Nat) : Option Nat :=
  (allIxs.foldl
    (fun best ix =>
      let curDist : α := allIxs.foldl
        (fun res oix =>
          if oix = ix ∨ (res : WithTop α) > best.2 then res else res + d ix oix)
        0
      if best.1 = none ∨ (curDist : WithTop α) < best.2 then (some ix, (curDist : WithTop α))
      else best)
    ((none : Option Nat), (⊤ : WithTop α))).1

/-- Position of the first entry of `res` whose cluster centroid (the
first component) is nearest to `ix` under `d` (models
`res.iter_mut().min_by(...)` in the k-medoid assignment loop;
`Iterator::min_by` returns the first of equally minimal elements). -/
def nearestClusterPos (d : Nat → Nat → α) (ix : Nat) :
    List (Nat × List Nat) → Nat
  | [] => 0
  | e :: rest =>
    let restPos := nearestClusterPos d ix rest
    match rest.get? restPos with
    | none => 0
    | some b => if d ix b.1 < d ix e.1 then restPos + 1 else 0

/-- One assignment round of `FannTree::kmedoid` (src/fann/kmed.rs lines
415-434): start each cluster as `(centroid, [centroid])` and push every
non-centroid candidate onto its nearest cluster (ties to the first
centroid in scan order). -/
def assignRound (d : Nat → Nat → α) (allIxs : List Nat) (centroids : List Nat) :
    List (Nat × List Nat) :=
  allIxs.foldl
    (fun res ix =>
      if centroids.contains ix then res
      else
        let pos := nearestClusterPos d ix res
        match res.get? pos with
        | none => res
        | some e => res.set pos (e.1, e.2 ++ [ix]))
    (centroids.map fun ix => (ix, [ix]))

/-- Push a new centroid vector onto the ring buffer of recent centroid
vectors: pop from the back while the length is at least `buff_size = 10`,
then push to the front (src/fann/kmed.rs lines 451-454). -/
def pushRing (buff : List (List Nat)) (cs : List Nat) : List (List Nat) :=
  cs :: buff.take 9

/-- The iteration of `FannTree::kmedoid` (src/fann/kmed.rs lines
413-455).  `rounds` is the source's own countdown starting at 1000:
each call performs one assignment round; when `done` was set by the
cycle detector the round's result is returned; when `rounds` reaches
its cap the current result is returned as a successful (approximate)
result; otherwise new per-cluster medoids are computed, compared
against every member of the ring buffer (as ordered sequences) and
pushed. -/
def kmedoidLoop (d : Nat → Nat → α) (allIxs : List Nat) :
    Nat → List (List Nat) → Bool → List (Nat × List Nat)
  | rounds, buff, done =>
    let centroids := (buff.get? 0).getD []
    let res := assignRound d allIxs centroids
    if done then res
    else
      match rounds with
      | 0 => res
      | 1 => res
      | r + 2 =>
        let newCs := res.map fun cluster => (centroid d cluster.2).getD 0
        let done2 := buff.any fun oldCs => oldCs = newCs
        kmedoidLoop d allIxs (r + 1) (pushRing buff newCs) done2

/-- `FannTree::kmedoid(provider, all_ixs, init_centroids, k_num, cache,
info)` (src/fann/kmed.rs lines 387-456).  If there are at most `k_num`
candidates each becomes its own singleton cluster; otherwise the loop
starts from the given initial centroids (or the first `k_num`
candidates) with 1000 rounds.  The `unwrap` inside the medoid update
cannot fire (clusters always contain their centroid), modelled by
`getD 0` inside `kmedoidLoop`. -/
def kmedoid (d : Nat → Nat → α) (allIxs : List Nat)
    (initCentroids : Option (List Nat)) (kNum : Nat) : List (Nat × List Nat) :=
  if allIxs.length ≤ kNum then allIxs.map fun ix => (ix, [])
  else kmedoidLoop d allIxs 1000 [initCentroids.getD (allIxs.take kNum)] false

/-- `FannTree::remove(ixs, index)` (src/fann/kmed.rs lines 458-460):
retain the candidates different from `index`. -/
def removeIx (ixs : List Nat) (index : Nat) : List Nat :=
  ixs.filter fun ix => ix ≠ index

/-- `Node::get_child_dist_max(child)` (src/fann/kmed.rs lines 109-115):
`center_dist + radius`. -/
def getChildDistMax (child : Node α × α) : α :=
  distCombine child.2 child.1.radius (fun centerDist radius => centerDist + radius)

/-- `Node::compute_radius` (src/fann/kmed.rs lines 117-124): the radius
becomes the maximum of `get_child_dist_max` over the children, or zero
when there are none (`max().unwrap_or(zero)`). -/
def computeRadius (n : Node α) : Node α :=
  .mk n.centroidIndex ((listMax (n.children.map getChildDistMax)).getD 0)
    n.countField n.children

/-- `Node::add_child(child, provider, cache, info)` (src/fann/kmed.rs
lines 126-147): compute the parent-to-child centroid distance, extend the
descendant count, push the child and re-sort the children by decreasing
`center_dist`. -/
def addChild (d : Nat → Nat → α) (n : Node α) (child : Node α) : Node α :=
  .mk n.centroidIndex n.radius (n.countField + child.countField)
    (sortByKeyDesc Prod.snd
      (n.children ++ [(child, d n.centroidIndex child.centroidIndex)]))

/-- Downward scan for `floorSqrt`: the largest `j ≤ i` with `j * j ≤ n`. -/
def sqrtLoop (n : Nat) : Nat → Nat
  | 0 => 0
  | i + 1 => if (i + 1) * (i + 1) ≤ n then i + 1 else sqrtLoop n i

/-- The integer square root `⌊√n⌋` (an executable model of the source's
`(len as f64).sqrt() as usize`; proved equal to `Nat.sqrt` below). -/
def floorSqrt (n : Nat) : Nat := sqrtLoop n n

/-- The fanout `num_k` chosen by `FannTree::build_level` (src/fann/kmed.rs
lines 479-483): `⌊√|S|⌋` clamped to at least 1 when
`max_node_size² > |S|`, and `max_node_size` otherwise. -/
def numK (maxNodeSize : Nat) (len : Nat) : Nat :=
  if maxNodeSize * maxNodeSize > len then (floorSqrt len).max 1 else maxNodeSize

/-- The `pre_cluster` seeding of `FannTree::build_level` (src/fann/kmed.rs
lines 492-517): optionally run a k-medoid over a prefix of the
candidates to obtain initial centroids. -/
def preClusterSeed (d : Nat → Nat → α) (preCluster : Option Nat)
    (curAllIxs : List Nat) (numk : Nat) : Option (List Nat) :=
  match preCluster with
  | none => none
  | some pc =>
    if curAllIxs.length ≤ pc * numk * 2 then none
    else some ((kmedoid d (curAllIxs.take (pc * numk)) none numk).map Prod.fst)

/-- `FannTree::build_level(provider, cache, info, cur_root_ix,
cur_all_ixs, max_node_size, pre_cluster)` (src/fann/kmed.rs lines
462-536).  `fuel` bounds the recursion depth (the source recursion
terminates because clusters shrink); exhausted fuel returns a bare node
and never occurs at the ample values used below. -/
def buildLevel (d : Nat → Nat → α) (maxNodeSize : Nat) (preCluster : Option Nat) :
    Nat → Nat → List Nat → Node α
  | 0, curRootIx, _ => Node.new α curRootIx
  | fuel + 1, curRootIx, curAllIxs =>
    let node := Node.new α curRootIx
    let numk := numK maxNodeSize curAllIxs.length
    let node :=
      if numk = 1 ∨ curAllIxs.length ≤ numk then
        curAllIxs.foldl
          (fun nd ix => addChild d nd (computeRadius (Node.new α ix)))
          node
      else
        let initCentroids := preClusterSeed d preCluster curAllIxs numk
        (kmedoid d curAllIxs initCentroids numk).foldl
          (fun nd cluster =>
            addChild d nd
              (buildLevel d maxNodeSize preCluster fuel cluster.1
                (removeIx cluster.2 cluster.1)))
          node
    computeRadius node

/-- `FannTree::build(provider, max_node_size, pre_cluster, cache, info)`
(src/fann/kmed.rs lines 545-577) for a provider over indices `0..n`:
the root is the overall 1-medoid (`none`, i.e. the `unwrap` panic, when
`n = 0`), removed from the candidate set before the recursive build.
The provider hash and distance name recorded alongside the root are
modelled separately for the persistence claims. -/
def buildTree (d : Nat → Nat → α) (n : Nat) (maxNodeSize : Option Nat)
    (preCluster : Option Nat) : Option (Node α) :=
  let allIxs := List.range n
  let maxNS := maxNodeSize.getD allIxs.length
  (centroid d allIxs).map fun rootIx =>
    buildLevel d maxNS preCluster (n + 1) rootIx (removeIx allIxs rootIx)

/-! ### Forest (src/forest.rs)

`Forest::create(root_provider, min_tree_size, max_tree_size)` (lines
197-211) partitions the provider's range into contiguous slabs; the tail
too short for a tree is held as the `remain` provider.  A slab is a pair
`(start, size)`. -/

/-- The slab-cutting loop of `Forest::create` (src/forest.rs lines
203-208): while `start + min_tree_size ≤ end`, cut a slab of size
`min(end - start, max_tree_size)`.  Returns the slabs and the final
`start` (the start of the residual range).  `fuel` guards the loop
(which the source would not exit if `min_tree_size = 0` and
`start = end`); any fuel above `end - start + 1` is ample when
`min_tree_size ≥ 1`. -/
def slabsLoop (minTree maxTree theEnd : Nat) :
    Nat → Nat → List (Nat × Nat) × Nat
  | 0, start => ([], start)
  | fuel + 1, start =>
    if start + minTree ≤ theEnd then
      let size := min (theEnd - start) maxTree
      let rest := slabsLoop minTree maxTree theEnd fuel (start + size)
      ((start, size) :: rest.1, rest.2)
    else ([], start)

/-- `Forest::create` over the root provider range `[s, e)`: the list of
slab ranges and the residual range `[remainStart, e)`. -/
def forestCreate (s e minTree maxTree : Nat) : List (Nat × Nat) × (Nat × Nat) :=
  let cut := slabsLoop minTree maxTree e (e - s + 1) s
  (cut.1, (cut.2, e))

/-- `Forest::get_closest(other, count, info)` (src/forest.rs lines
295-309): query every slab tree, concatenate, sort ascending by distance
and truncate to `count`.  The per-tree search is the `treeSearch`
function argument (the generic `B: Buildable` search); the residual
provider is *not* queried (the `res.extend(self.get_remain()...)` line is
commented out in the source).  `none` propagates a panicking tree
search. -/
def forestGetClosest (treeSearch : Nat × Nat → Option (List (Nat × α)))
    (slabs : List (Nat × Nat)) (count : Nat) : Option (List (Nat × α)) :=
  (slabs.mapM treeSearch).map fun results =>
    (sortByKey Prod.snd results.flatten).take count

/-! ### Persistence and fingerprint checking (src/forest.rs lines 138-266)

A stored tree blob carries a `(fingerprint, distance_name)` pair; the
archive is a keyed association list.  Deserialization itself is opaque
here, so a blob is just its header pair. -/

/-- The outcome of `Forest::load_all` for one slab tree. -/
inductive TreeSlot : Type where
  | adopted : TreeSlot
  | built : TreeSlot
deriving DecidableEq

/-- `MisconfiguredTreeError` (src/forest.rs lines 10-17): the tree was
created for a different provider. -/
inductive MisconfiguredTreeError : Type where
  | mk : MisconfiguredTreeError
deriving DecidableEq

/-- `Buildable::set_tree(tree, ignore_provider, is_dirty)` (src/forest.rs
lines 161-179): unless checking is disabled, reject the tree when its
recorded distance name differs from the provider's kernel name or its
recorded fingerprint differs from the provider's computed hash. -/
def setTree (ignoreProvider : Bool) (treeHash treeDname providerHash kernelName : String) :
    Except MisconfiguredTreeError Unit :=
  if ignoreProvider then .ok ()
  else if treeDname ≠ kernelName then .error .mk
  else if treeHash ≠ providerHash then .error .mk
  else .ok ()

/-- The per-tree body of `Forest::load_all` (src/forest.rs lines 247-264):
when `force` is set, or the tree's key is absent from the archive, the
tree is built from the provider; otherwise the stored blob is
deserialized and `set_tree` verifies it (`?` propagates the
fingerprint-mismatch error). -/
def loadTreeStep (force ignoreProvider : Bool)
    (archive : List (String × (String × String))) (key : String)
    (providerHash kernelName : String) : Except MisconfiguredTreeError TreeSlot :=
  if force then .ok .built
  else match archive.lookup key with
    | none => .ok .built
    | some blob =>
      match setTree ignoreProvider blob.1 blob.2 providerHash kernelName with
      | .error e => .error e
      | .ok _ => .ok .adopted

/-- `Forest::load_all` over the slab trees (src/forest.rs lines 232-266):
fold `loadTreeStep` over the tree keys, stopping at the first error. -/
def loadAll (force ignoreProvider : Bool)
    (archive : List (String × (String × String)))
    (providerHash kernelName : String) :
    List String → Except MisconfiguredTreeError (List TreeSlot)
  | [] => .ok []
  | key :: rest =>
    match loadTreeStep force ignoreProvider archive key providerHash kernelName with
    | .error e => .error e
    | .ok slot =>
      match loadAll force ignoreProvider archive providerHash kernelName rest with
      | .error e => .error e
      | .ok slots => .ok (slot :: slots)

/-! ### `VecProvider` (src/distances/vec.rs)

A provider over a backing vector of embeddings with a sub-range; the
`NearestNeighbors::get_closest` implementation enumerates
`self.embeddings` — the *backing* vector — ignoring `self.range`. -/

/-- `VecProvider`: backing embeddings plus a range (src/distances/vec.rs
lines 54-74).  `β` is the embedding type. -/
structure VecProvider (β : Type) : Type where
  embeddings : List β
  rangeStart : Nat
  rangeEnd : Nat

/-- `VecProvider::new(embeddings, distance)`: the full range. -/
def VecProvider.new {β : Type} (embeddings : List β) : VecProvider β :=
  ⟨embeddings, 0, embeddings.length⟩

/-- `InvalidRangeError` for `subrange`. -/
inductive InvalidRangeError : Type where
  | mk : InvalidRangeError
deriving DecidableEq

/-- `EmbeddingProvider::subrange(new_range)` for `VecProvider`
(src/distances/vec.rs lines 115-124): restrict the range, keeping the
same backing vector; error when the new range exceeds the current one. -/
def VecProvider.subrange {β : Type} (p : VecProvider β) (s e : Nat) :
    Except InvalidRangeError (VecProvider β) :=
  if s < p.rangeStart ∨ e > p.rangeEnd then .error .mk
  else .ok ⟨p.embeddings, s, e⟩

/-- `NearestNeighbors::get_closest(other, count, info)` for `VecProvider`
(src/distances/vec.rs lines 127-148): enumerate the *backing* vector
`self.embeddings` (not the range), pair each embedding with its kernel
distance to the query, sort ascending, take `count` and finalize. -/
def VecProvider.getClosest {β : Type} (distanceCmp : β → β → α)
    (finalize : α → α) (p : VecProvider β) (other : β) (count : Nat) :
    List (Nat × α) :=
  ((sortByKey Prod.snd
      (p.embeddings.enum.map fun e => (e.1, distanceCmp e.2 other))).take count).map
    fun e => (e.1, finalize e.2)

/-- `VecL2Distance::distance_cmp` (src/distances/vec.rs lines 35-43):
the sum of squared component differences (the monotone comparable form of
L2; `finalize` takes the square root).  Stated over `ℤ` components. -/
def vecL2cmp (a b : List ℤ) : ℤ :=
  ((a.zip b).map fun p => (p.1 - p.2) * (p.1 - p.2)).sum

/-! ### Concrete instances used by witnesses and counterexamples

`lineDist f` is the one-dimensional taxicab kernel on coordinates `f`:
a genuine metric, hence symmetric, zero on the diagonal and obeying the
triangle inequality. -/

/-- The distance kernel induced by one-dimensional coordinates. -/
def lineDist (f : Nat → α) (i j : Nat) : α := |f i - f j|

/-- Coordinates of the three-point corpus `{0, 10, -10}` with the query
point `1` at index `3`, used by several counterexamples: the tree built
over indices `0, 1, 2` is a root `0` with leaf children `1` and `2`. -/
def exCoords : Nat → ℤ
  | 0 => 0
  | 1 => 10
  | 2 => -10
  | 3 => 1
  | _ => 0

/-- The kernel over `exCoords`. -/
def exD (i j : Nat) : ℤ := lineDist exCoords i j

/-- The tree that `buildTree exD 3 none none` produces (checked by `rfl`
in the proofs below). -/
def exTree : Node ℤ :=
  .mk 0 10 3 [(.mk 1 0 1 [], 10), (.mk 2 0 1 [], 10)]

/-- Build-time structural invariant of a node (established by
`add_child` and `compute_radius`): every stored `center_dist` is the
kernel distance from this node's centroid to the child's centroid, the
radius is `max` over children of `center_dist + child.radius` (zero for
leaves), and the children are themselves well-formed. -/
inductive WellFormed (d : Nat → Nat → α) : Node α → Prop where
  | mk {cix : Nat} {radius : α} {cnt : Nat} {cs : List (Node α × α)} :
      (∀ c cd, (c, cd) ∈ cs → cd = d cix c.centroidIndex) →
      (∀ c cd, (c, cd) ∈ cs → WellFormed d c) →
      radius = (listMax (cs.map getChildDistMax)).getD 0 →
      WellFormed d (.mk cix radius cnt cs)

/-! ## Helper lemmas -/

theorem lineDist_symm (f : Nat → α) (i j : Nat) : lineDist f i j = lineDist f j i :=
  abs_sub_comm (f i) (f j)

theorem lineDist_self (f : Nat → α) (i : Nat) : lineDist f i i = 0 := by
  simp [lineDist]

theorem lineDist_triangle (f : Nat → α) (i j k : Nat) :
    lineDist f i k ≤ lineDist f i j + lineDist f j k :=
  abs_sub_le (f i) (f j) (f k)

theorem sqrtLoop_le (n : Nat) : ∀ i, sqrtLoop n i ≤ i := by
  intro i
  induction i with
  | zero => simp [sqrtLoop]
  | succ i ih =>
    by_cases h : (i + 1) * (i + 1) ≤ n
    · simp [sqrtLoop, h]
    · simp only [sqrtLoop, if_neg h]
      exact ih.trans (Nat.le_succ i)

theorem sqrtLoop_sq_le (n : Nat) : ∀ i, sqrtLoop n i * sqrtLoop n i ≤ n := by
  intro i
  induction i with
  | zero => simp [sqrtLoop]
  | succ i ih =>
    by_cases h : (i + 1) * (i + 1) ≤ n
    · simp [sqrtLoop, h]
    · simpa [sqrtLoop, if_neg h] using ih

theorem le_sqrtLoop (n : Nat) :
    ∀ i j, j ≤ i → j * j ≤ n → j ≤ sqrtLoop n i := by
  intro i
  induction i with
  | zero => intro j hj _; simpa [sqrtLoop] using hj
  | succ i ih =>
    intro j hj hsq
    by_cases h : (i + 1) * (i + 1) ≤ n
    · simpa [sqrtLoop, h] using hj
    · simp only [sqrtLoop, if_neg h]
      rcases eq_or_lt_of_le hj with heq | hlt
      · exact absurd (heq ▸ hsq) h
      · exact ih j (Nat.lt_succ_iff.mp hlt) hsq

/-- The executable integer square root agrees with `Nat.sqrt`. -/
theorem floorSqrt_eq_sqrt (n : Nat) : floorSqrt n = Nat.sqrt n := by
  refine le_antisymm ?_ ?_
  · exact Nat.le_sqrt.mpr (sqrtLoop_sq_le n n)
  · exact le_sqrtLoop n n (Nat.sqrt n) (Nat.sqrt_le_self n) (Nat.sqrt_le n)

/-! ## Claim C3 — fanout selection in `build_level` -/

/-- C3, corrected.  The builder's fanout (src/fann/kmed.rs lines 479-483)
is the *reverse* of the claim: when `max_node_size² > |S|` it is
`⌊√|S|⌋` clamped to at least 1, and it is `max_node_size` otherwise. -/
theorem c3_fanout_amended (m s : Nat) :
    (m * m > s → numK m s = (Nat.sqrt s).max 1) ∧ (¬ m * m > s → numK m s = m) := by
  constructor
  · intro h
    simp [numK, if_pos h, floorSqrt_eq_sqrt]
  · intro h
    simp [numK, if_neg h]

/-- C3, counterexample to the claim as stated: with `m = 3`, `|S| = 4`
we have `m² > |S|`, yet the code picks `⌊√4⌋ = 2`, not `m = 3`; with
`m = 2`, `|S| = 9` we have `m² ≤ |S|`, yet the code picks `m = 2`,
not `⌊√9⌋ = 3`. -/
theorem c3_fanout_counterexample :
    (3 * 3 > 4 ∧ numK 3 4 = 2 ∧ numK 3 4 ≠ 3) ∧
      (¬ 2 * 2 > 9 ∧ numK 2 9 = 2 ∧ numK 2 9 ≠ 3) := by
  decide

/-- C3, witness: the amended theorem applied at `m = 3`, `|S| = 4`. -/
theorem c3_fanout_witness : numK 3 4 = (Nat.sqrt 4).max 1 :=
  (c3_fanout_amended 3 4).1 (by decide)

/-! ## Claim C5 — saturating subtraction -/

/-- C5, corrected.  Only the inner-case lower bound `get_dist_min` is a
saturating subtraction (clamped below at zero); the outer-case child
estimate `own_dist.combine(&center_dist, |own, center| own - center)` is
a plain subtraction and is negative whenever `center > own`. -/
theorem c5_saturating_amended :
    (∀ a b : α, distMinVal a b = max 0 (a - b) ∧ 0 ≤ distMinVal a b) ∧
      (∀ a b : α, cDistEst a b = a - b) ∧ cDistEst (1 : ℤ) 3 < 0 := by
  refine ⟨fun a b => ⟨rfl, le_max_left 0 (a - b)⟩, fun a b => rfl, by decide⟩

/-- C5, counterexample to the claim as stated: the difference used in the
outer-case pruning comparison at `a = 1`, `b = 3` is `-2`, not
`max 0 (1 - 3) = 0`. -/
theorem c5_saturating_counterexample :
    cDistEst (1 : ℤ) 3 = -2 ∧ cDistEst (1 : ℤ) 3 ≠ max 0 ((1 : ℤ) - 3) := by
  decide

/-- C5, witness: the amended theorem instantiated at `α = ℤ`,
`a = 5`, `b = 7`. -/
theorem c5_saturating_witness :
    distMinVal (5 : ℤ) 7 = max 0 ((5 : ℤ) - 7) ∧ cDistEst (5 : ℤ) 7 = 5 - 7 :=
  ⟨((c5_saturating_amended (α := ℤ)).1 5 7).1, (c5_saturating_amended (α := ℤ)).2.1 5 7⟩

/-! ## Claim C7 — `get_closest` with `count = 0` -/

/-- C7, code bug.  The spec requires `k = 0` to return the empty result,
but `max_dist` computes `res[count.min(res.len()) - 1]`
(src/fann/kmed.rs lines 165-168): with `count = 0` the usize subtraction
underflows and the access panics (`none`), both on the example tree and
through a full build; the streaming cutoff (src/fann/algo.rs lines
196-201) likewise evaluates `res[res.len() - 1]` on the empty buffer. -/
theorem c7_count_zero_panics :
    treeGetClosest (exD 3) exTree 0 = none ∧
      (buildTree exD 3 none none).bind (fun t => treeGetClosest (exD 3) t 0) = none ∧
      maxDistStream ([] : List (Nat × ℤ)) 0 = none := by
  decide

/-! ## Claim C2 — the pruning cutoff `max_dist` -/

/-- C2, corrected.  The streaming search's cutoff
(src/fann/algo.rs lines 196-201) is as the claim states: `+∞` while the
buffer holds fewer than `k` results, and the last buffered distance
otherwise.  The recursive search's cutoff (src/fann/kmed.rs lines
165-168) is `res[min(k, len) - 1]` — the last buffered distance even
while the buffer is under-filled — so candidates can be pruned while
fewer than `k` results have been collected. -/
theorem c2_cutoff_amended :
    (∀ (res : List (Nat × α)) (count : Nat),
        res.length < count → maxDistStream res count = some ⊤) ∧
      (∀ (res : List (Nat × α)) (count : Nat), 1 ≤ res.length → count ≤ res.length →
        maxDistStream res count = (res.get? (res.length - 1)).map fun p => ((p.2 : α) : WithTop α)) ∧
      (∀ (res : List (Nat × α)) (count : Nat), 1 ≤ min count res.length →
        maxDist res count = (res.get? (min count res.length - 1)).map Prod.snd) := by
  refine ⟨?_, ?_, ?_⟩
  · intro res count h
    simp [maxDistStream, if_pos h]
  · intro res count h1 h2
    cases res with
    | nil => simp at h1
    | cons x xs =>
      simp only [maxDistStream, if_neg (not_lt.mpr h2)]
      rfl
  · intro res count h
    unfold maxDist
    cases hm : min count res.length with
    | zero => omega
    | succ i => simp [hm]

/-- C2, counterexample to the claim as stated: on the buffer `[(0, 1)]`
with `k = 3` (fewer than `k` results) the recursive search's cutoff is
the finite `1`, not `+∞`; as a consequence, searching the built
three-node example tree with `k = 3` prunes both remaining children
while only one result has been collected and returns a single entry. -/
theorem c2_cutoff_counterexample :
    maxDist [(0, (1 : ℤ))] 3 = some 1 ∧
      (buildTree exD 3 none none).bind (fun t => treeGetClosest (exD 3) t 3) =
        some [(0, 1)] := by
  decide

/-- C2, witness: the amended theorem applied to the one-entry buffer with
`k = 3` (recursive cutoff) and to the empty buffer with `k = 3`
(streaming cutoff). -/
theorem c2_cutoff_witness :
    maxDistStream ([] : List (Nat × ℤ)) 3 = some ⊤ ∧
      maxDist [(0, (1 : ℤ))] 3 = ([(0, (1 : ℤ))].get? 0).map Prod.snd :=
  ⟨(c2_cutoff_amended (α := ℤ)).1 [] 3 (by decide),
    (c2_cutoff_amended (α := ℤ)).2.2 [(0, 1)] 3 (by decide)⟩

/-! ## Claim C10 — `VecProvider` brute force ignores the sub-range -/

/-- C10, confirmed.  `VecProvider::get_closest` enumerates the backing
vector, so its result does not depend on the provider's range: for any
sub-range provider obtained through `subrange` the result equals that of
the full provider.  Concretely, the provider over `[[0], [5]]` restricted
to the proper sub-range `[0, 1)` still returns index `1` for a query at
`[5]` — an index outside its range. -/
theorem c10_brute_ignores_range :
    (∀ {β : Type} (emb : List β) (s e : Nat) (p2 : VecProvider β)
        (dist : β → β → α) (fin : α → α) (other : β) (count : Nat),
        (VecProvider.new emb).subrange s e = .ok p2 →
        p2.getClosest dist fin other count =
          (VecProvider.new emb).getClosest dist fin other count) ∧
      (VecProvider.new [[(0 : ℤ)], [5]]).subrange 0 1 =
          .ok ⟨[[(0 : ℤ)], [5]], 0, 1⟩ ∧
      VecProvider.getClosest vecL2cmp id ⟨[[(0 : ℤ)], [5]], 0, 1⟩ [5] 1 = [(1, 0)] ∧
      ¬ (1 : Nat) < 1 := by
  refine ⟨?_, rfl, by decide, by decide⟩
  intro β emb s e p2 dist fin other count h
  unfold VecProvider.subrange at h
  by_cases hc : s < (VecProvider.new emb).rangeStart ∨ e > (VecProvider.new emb).rangeEnd
  · rw [if_pos hc] at h
    exact absurd h (by simp)
  · rw [if_neg hc] at h
    cases h
    rfl

/-- C10, witness: the range-independence part applied to the concrete
sub-range provider over `[[0], [5]]`. -/
theorem c10_brute_ignores_range_witness :
    VecProvider.getClosest (α := ℤ) vecL2cmp id ⟨[[(0 : ℤ)], [5]], 0, 1⟩ [5] 1 =
      (VecProvider.new [[(0 : ℤ)], [5]]).getClosest vecL2cmp id [5] 1 :=
  c10_brute_ignores_range.1 [[(0 : ℤ)], [5]] 0 1 _ vecL2cmp id [5] 1 rfl

/-! ## Claim C8 — fingerprint verification on load -/

/-- C8, confirmed.  With provider checking enabled (`ignore_provider =
false`) and no forced rebuild, a stored tree is adopted iff its recorded
fingerprint equals the provider's computed hash and its recorded distance
name equals the kernel's name; on either mismatch `load_all` fails with
the misconfigured-tree error; when the key is absent the tree is built. -/
theorem c8_fingerprint_check (archive : List (String × (String × String)))
    (key h dn ph kn : String) :
    (archive.lookup key = some (h, dn) →
        (loadTreeStep false false archive key ph kn = .ok .adopted ↔ h = ph ∧ dn = kn) ∧
          (¬(h = ph ∧ dn = kn) →
            loadTreeStep false false archive key ph kn = .error .mk)) ∧
      (archive.lookup key = none →
        loadTreeStep false false archive key ph kn = .ok .built) := by
  constructor
  · intro hfound
    constructor
    · by_cases hdn : dn = kn
      · by_cases hh : h = ph
        · simp [loadTreeStep, hfound, setTree, hdn, hh]
        · simp [loadTreeStep, hfound, setTree, hdn, hh]
      · simp [loadTreeStep, hfound, setTree, hdn]
    · intro hmis
      by_cases hdn : dn = kn
      · by_cases hh : h = ph
        · exact absurd ⟨hh, hdn⟩ hmis
        · simp [loadTreeStep, hfound, setTree, hdn, hh]
      · simp [loadTreeStep, hfound, setTree, hdn]
  · intro habsent
    simp [loadTreeStep, habsent]

/-- C8, witness: a matching blob is adopted; a blob differing in the
fingerprint makes the load fail; a missing key triggers a build. -/
theorem c8_fingerprint_check_witness :
    loadTreeStep false false [("tree0-2.json", ("abc", "l2"))] "tree0-2.json" "abc" "l2" =
        .ok .adopted ∧
      loadTreeStep false false [("tree0-2.json", ("abc", "l2"))] "tree0-2.json" "xyz" "l2" =
        .error .mk ∧
      loadTreeStep false false [("tree0-2.json", ("abc", "l2"))] "tree9-9.json" "abc" "l2" =
        .ok .built :=
  ⟨((c8_fingerprint_check [("tree0-2.json", ("abc", "l2"))] "tree0-2.json" "abc" "l2"
        "abc" "l2").1 (by decide)).1.mpr ⟨rfl, rfl⟩,
    ((c8_fingerprint_check [("tree0-2.json", ("abc", "l2"))] "tree0-2.json" "abc" "l2"
        "xyz" "l2").1 (by decide)).2 (by decide),
    (c8_fingerprint_check [("tree0-2.json", ("abc", "l2"))] "tree9-9.json" "abc" "l2"
        "abc" "l2").2 (by decide)⟩

/-! ## Claim C6 — residual-only forests -/

/-- C6, corrected.  With `N < min_tree` the slab loop exits immediately,
so the forest holds zero trees and the whole range `[0, N)` is the
residual; but `Forest::get_closest` (src/forest.rs lines 295-309) only
queries the trees — the residual brute-force merge is commented out — so
the query returns the empty list, not a brute-force scan of `[0, N)`. -/
theorem c6_residual_only_amended (n minTree maxTree : Nat) (hn : n < minTree) :
    (forestCreate 0 n minTree maxTree).1 = [] ∧
      (forestCreate 0 n minTree maxTree).2 = (0, n) ∧
      ∀ (treeSearch : Nat × Nat → Option (List (Nat × α))) (count : Nat),
        forestGetClosest treeSearch (forestCreate 0 n minTree maxTree).1 count =
          some [] := by
  have hloop : slabsLoop minTree maxTree n (n + 1) 0 = ([], 0) := by
    simp only [slabsLoop]
    rw [if_neg (by omega)]
  refine ⟨?_, ?_, ?_⟩
  · simp [forestCreate, hloop]
  · simp [forestCreate, hloop]
  · intro treeSearch count
    have h1 : (forestCreate 0 n minTree maxTree).1 = [] := by simp [forestCreate, hloop]
    rw [h1]
    unfold forestGetClosest
    simp [List.mapM, List.mapM.loop, sortByKey]

/-- C6, counterexample to the claim as stated: for `N = 1 < min_tree = 2`
the forest has zero trees and the query returns the empty list, while the
brute-force scan of `[0, 1)` with `k = 1` returns the nonempty `[(0, 1)]`
(distances from `exD`'s query point). -/
theorem c6_residual_only_counterexample :
    (forestCreate 0 1 2 2).1 = [] ∧
      forestGetClosest (fun _ => none) (forestCreate 0 1 2 2).1 1 =
        some ([] : List (Nat × ℤ)) ∧
      bruteForce (exD 3) 1 1 = [(0, 1)] ∧
      some ([] : List (Nat × ℤ)) ≠ some [(0, 1)] := by
  refine ⟨by decide, by decide, by decide, by decide⟩

/-- C6, witness: the amended theorem applied at `N = 1`, `min_tree = 2`,
`max_tree = 2` with the never-consulted tree search `fun _ => none`. -/
theorem c6_residual_only_witness :
    (forestCreate 0 1 2 2).1 = [] ∧
      forestGetClosest (fun _ => (none : Option (List (Nat × ℤ))))
        (forestCreate 0 1 2 2).1 1 = some [] :=
  ⟨(c6_residual_only_amended (α := ℤ) 1 2 2 (by decide)).1,
    (c6_residual_only_amended (α := ℤ) 1 2 2 (by decide)).2.2 (fun _ => none) 1⟩

/-! ## Claim C9 — k-medoid termination -/

/-- C9, confirmed, part of the ring-buffer discipline: pushing onto the
ring buffer never exceeds depth 10. -/
theorem pushRing_length_le (buff : List (List Nat)) (cs : List Nat) :
    (pushRing buff cs).length ≤ 10 := by
  simp only [pushRing, List.length_cons]
  have := List.length_take_le 9 buff
  omega

/-- The k-medoid loop with the cycle-detection flag set returns the
round's assignment at once. -/
theorem kmedoidLoop_done (d : Nat → Nat → α) (allIxs : List Nat)
    (rounds : Nat) (buff : List (List Nat)) :
    kmedoidLoop d allIxs rounds buff true =
      assignRound d allIxs ((buff.get? 0).getD []) := by
  cases rounds with
  | zero => simp [kmedoidLoop]
  | succ r => cases r with
    | zero => simp [kmedoidLoop]
    | succ r2 => simp [kmedoidLoop]

/-- The k-medoid loop at its round cap returns the round's assignment. -/
theorem kmedoidLoop_cap (d : Nat → Nat → α) (allIxs : List Nat)
    (rounds : Nat) (buff : List (List Nat)) (done : Bool) (hr : rounds ≤ 1) :
    kmedoidLoop d allIxs rounds buff done =
      assignRound d allIxs ((buff.get? 0).getD []) := by
  cases done with
  | true => exact kmedoidLoop_done d allIxs rounds buff
  | false =>
    cases rounds with
    | zero => simp [kmedoidLoop]
    | succ r => cases r with
      | zero => simp [kmedoidLoop]
      | succ r2 => omega

/-- The k-medoid loop always returns the assignment of some centroid
sequence. -/
theorem kmedoidLoop_total (d : Nat → Nat → α) (allIxs : List Nat)
    (rounds : Nat) (buff : List (List Nat)) (done : Bool) :
    ∃ cs : List Nat, kmedoidLoop d allIxs rounds buff done = assignRound d allIxs cs := by
  induction rounds using Nat.strong_induction_on generalizing buff done with
  | _ rounds ih =>
    cases done with
    | true => exact ⟨_, kmedoidLoop_done d allIxs rounds buff⟩
    | false =>
      cases rounds with
      | zero => exact ⟨_, kmedoidLoop_cap d allIxs 0 buff false (by omega)⟩
      | succ r => cases r with
        | zero => exact ⟨_, kmedoidLoop_cap d allIxs 1 buff false (by omega)⟩
        | succ r2 =>
          obtain ⟨cs, hcs⟩ := ih (r2 + 1) (by omega)
            (pushRing buff ((assignRound d allIxs ((buff.get? 0).getD [])).map
              fun cluster => (centroid d cluster.2).getD 0))
            (buff.any fun oldCs =>
              oldCs = (assignRound d allIxs ((buff.get? 0).getD [])).map
                fun cluster => (centroid d cluster.2).getD 0)
          exact ⟨cs, by rw [kmedoidLoop]; simpa using hcs⟩

/-- C9, confirmed.  The k-medoid iteration terminates on every input:
(1) once the cycle detector has matched the new centroid sequence against
a ring-buffer member (`done = true`), the next call returns that round's
assignment; (2) when the round counter reaches its cap (`rounds ≤ 1`
models `rounds -= 1; if rounds <= 0` at the 1000th round) the current
assignment is returned as an ordinary, successful result; (3) on every
input the loop returns the assignment of some centroid sequence — it is a
total function whose recursion is the source's own countdown from 1000 —
and the ring buffer passed on never exceeds depth 10.  The cycle check
`buff.par_iter().any(|old_cs| *old_cs == new_cs)` compares ordered
sequences (`List` equality). -/
theorem c9_kmedoid_terminates (d : Nat → Nat → α) (allIxs : List Nat) :
    (∀ (rounds : Nat) (buff : List (List Nat)),
        kmedoidLoop d allIxs rounds buff true =
          assignRound d allIxs ((buff.get? 0).getD [])) ∧
      (∀ (rounds : Nat) (buff : List (List Nat)) (done : Bool), rounds ≤ 1 →
        kmedoidLoop d allIxs rounds buff done =
          assignRound d allIxs ((buff.get? 0).getD [])) ∧
      (∀ (rounds : Nat) (buff : List (List Nat)) (done : Bool),
        ∃ cs : List Nat, kmedoidLoop d allIxs rounds buff done = assignRound d allIxs cs) ∧
      (∀ (buff : List (List Nat)) (cs : List Nat), (pushRing buff cs).length ≤ 10) :=
  ⟨fun rounds buff => kmedoidLoop_done d allIxs rounds buff,
    fun rounds buff done hr => kmedoidLoop_cap d allIxs rounds buff done hr,
    fun rounds buff done => kmedoidLoop_total d allIxs rounds buff done,
    fun buff cs => pushRing_length_le buff cs⟩

/-! ## Claim C1 — soundness of the recursive search

The result buffer invariant: sorted ascending by distance, at most
`count` entries, every entry either inherited or a true
`(index, distance-to-query)` pair from the subtree being searched. -/

theorem mem_insertSorted {x y : Nat × α} {l : List (Nat × α)}
    (h : x ∈ insertSorted y l) : x = y ∨ x ∈ l := by
  induction l with
  | nil => simpa [insertSorted] using h
  | cons z zs ih =>
    unfold insertSorted at h
    by_cases hc : y.2 < z.2
    · rw [if_pos hc] at h
      simpa using h
    · rw [if_neg hc] at h
      rcases List.mem_cons.mp h with rfl | h2
      · simp
      · rcases ih h2 with h3 | h3
        · exact Or.inl h3
        · exact Or.inr (List.mem_cons_of_mem _ h3)

theorem insertSorted_length (y : Nat × α) (l : List (Nat × α)) :
    (insertSorted y l).length = l.length + 1 := by
  induction l with
  | nil => rfl
  | cons z zs ih =>
    unfold insertSorted
    by_cases hc : y.2 < z.2
    · simp [hc]
    · simp [hc, ih]

theorem insertSorted_pairwise {y : Nat × α} {l : List (Nat × α)}
    (h : l.Pairwise fun a b => a.2 ≤ b.2) :
    (insertSorted y l).Pairwise fun a b => a.2 ≤ b.2 := by
  induction l with
  | nil => simp [insertSorted]
  | cons z zs ih =>
    rcases List.pairwise_cons.mp h with ⟨hz, hzs⟩
    unfold insertSorted
    by_cases hc : y.2 < z.2
    · rw [if_pos hc]
      refine List.pairwise_cons.mpr ⟨?_, h⟩
      intro b hb
      rcases List.mem_cons.mp hb with rfl | hb2
      · exact le_of_lt hc
      · exact (le_of_lt hc).trans (hz b hb2)
    · rw [if_neg hc]
      refine List.pairwise_cons.mpr ⟨?_, ih hzs⟩
      intro b hb
      rcases mem_insertSorted hb with rfl | hb2
      · exact not_lt.mp hc
      · exact hz b hb2

theorem addNode_spec (res : List (Nat × α)) (count : Nat) (ix : Nat) (dist : α)
    (hp : res.Pairwise fun a b => a.2 ≤ b.2) :
    (addNode res ix dist count).Pairwise (fun a b => a.2 ≤ b.2) ∧
      (addNode res ix dist count).length = min count (res.length + 1) ∧
      ∀ p ∈ addNode res ix dist count, p ∈ res ∨ p = (ix, dist) := by
  refine ⟨?_, ?_, ?_⟩
  · exact List.Pairwise.sublist (List.take_sublist _ _) (insertSorted_pairwise hp)
  · simp [addNode, insertSorted_length]
  · intro p hpmem
    rcases mem_insertSorted (List.mem_of_mem_take hpmem) with h | h
    · exact Or.inr h
    · exact Or.inl h

omit [LinearOrderedAddCommGroup α] in
theorem maxDist_isSome (res : List (Nat × α)) (count : Nat)
    (hres : 1 ≤ res.length) (hcount : 1 ≤ count) :
    ∃ md, maxDist res count = some md := by
  unfold maxDist
  cases hm : min count res.length with
  | zero => omega
  | succ i =>
    have hi : i < res.length := by omega
    refine ⟨(res.get ⟨i, hi⟩).2, ?_⟩
    show (res.get? i).map Prod.snd = _
    rw [List.get?_eq_get hi]
    rfl

theorem getClosestStep_spec {res : List (Nat × α)} {count : Nat} (cix : Nat) (own : α)
    (hcount : 1 ≤ count) (hp : res.Pairwise fun a b => a.2 ≤ b.2)
    (hlen : res.length ≤ count) :
    ∃ res1, getClosestStep res cix own count = some res1 ∧
      (res1.Pairwise fun a b => a.2 ≤ b.2) ∧ res1.length ≤ count ∧
      1 ≤ res1.length ∧ res.length ≤ res1.length ∧
      ∀ p ∈ res1, p ∈ res ∨ p = (cix, own) := by
  obtain ⟨hp2, hl2, hm2⟩ := addNode_spec res count cix own hp
  unfold getClosestStep
  by_cases hlt : res.length < count
  · rw [if_pos hlt]
    have hla : (addNode res cix own count).length = res.length + 1 := by
      rw [hl2]
      exact min_eq_right (by omega)
    exact ⟨_, rfl, hp2, by omega, by omega, by omega, hm2⟩
  · rw [if_neg hlt]
    have hlen2 : res.length = count := by omega
    have hla : (addNode res cix own count).length = count := by
      rw [hl2, hlen2]
      exact min_eq_left (by omega)
    cases hmd : maxDist res count with
    | none =>
      exfalso
      obtain ⟨md, hmd2⟩ := maxDist_isSome res count (by omega) hcount
      rw [hmd] at hmd2
      cases hmd2
    | some md =>
      dsimp only
      by_cases hown : own < md
      · refine ⟨_, rfl, ?_⟩
        rw [if_pos hown]
        exact ⟨hp2, by omega, by omega, by omega, hm2⟩
      · refine ⟨_, rfl, ?_⟩
        rw [if_neg hown]
        exact ⟨hp, by omega, by omega, by omega, fun p hpm => Or.inl hpm⟩

theorem mem_insertByKey {β : Type} {key : β → α} {x y : β} {l : List β}
    (h : x ∈ insertByKey key y l) : x = y ∨ x ∈ l := by
  induction l with
  | nil => simpa [insertByKey] using h
  | cons z zs ih =>
    unfold insertByKey at h
    by_cases hc : key y ≤ key z
    · rw [if_pos hc] at h
      simpa using h
    · rw [if_neg hc] at h
      rcases List.mem_cons.mp h with rfl | h2
      · simp
      · rcases ih h2 with h3 | h3
        · exact Or.inl h3
        · exact Or.inr (List.mem_cons_of_mem _ h3)

theorem mem_sortByKey {β : Type} {key : β → α} {x : β} {l : List β}
    (h : x ∈ sortByKey key l) : x ∈ l := by
  induction l with
  | nil => simp [sortByKey] at h
  | cons z zs ih =>
    unfold sortByKey at h
    rcases mem_insertByKey h with rfl | h2
    · simp
    · exact List.mem_cons_of_mem _ (ih h2)

/-- The `childLoop` invariant, given the invariant for the recursive
calls at the current fuel. -/
theorem childLoop_spec (dq : Nat → α) (count : Nat) (hcount : 1 ≤ count) (fuel : Nat)
    (hrec : ∀ (n : Node α) (res : List (Nat × α)),
      (res.Pairwise fun a b => a.2 ≤ b.2) → res.length ≤ count →
      ∃ r2, getClosestF dq count fuel n res = some r2 ∧
        (r2.Pairwise fun a b => a.2 ≤ b.2) ∧ r2.length ≤ count ∧
        res.length ≤ r2.length ∧
        ∀ p ∈ r2, p ∈ res ∨ (p.2 = dq p.1 ∧ InSubtree n p.1)) :
    ∀ (cs : List (Node α × α)) (res : List (Nat × α)),
      1 ≤ res.length → (res.Pairwise fun a b => a.2 ≤ b.2) → res.length ≤ count →
      ∃ r2, childLoop (fun c r => getClosestF dq count fuel c r) count cs res = some r2 ∧
        (r2.Pairwise fun a b => a.2 ≤ b.2) ∧ r2.length ≤ count ∧
        res.length ≤ r2.length ∧
        ∀ p ∈ r2, p ∈ res ∨
          ∃ c t, (c, t) ∈ cs ∧ p.2 = dq p.1 ∧ InSubtree c p.1 := by
  intro cs
  induction cs with
  | nil =>
    intro res hne hp hlen
    exact ⟨res, rfl, hp, hlen, le_refl _, fun p hpm => Or.inl hpm⟩
  | cons e rest ih =>
    intro res hne hp hlen
    obtain ⟨c, t⟩ := e
    unfold childLoop
    cases hmd : maxDist res count with
    | none =>
      exfalso
      obtain ⟨md, hmd2⟩ := maxDist_isSome res count hne hcount
      rw [hmd] at hmd2
      cases hmd2
    | some md =>
      dsimp only
      by_cases hskip : md < t
      · rw [if_pos hskip]
        obtain ⟨r2, h1, h2, h3, h4, h5⟩ := ih res hne hp hlen
        refine ⟨r2, h1, h2, h3, h4, ?_⟩
        intro p hpm
        rcases h5 p hpm with h | ⟨c2, t2, hmem, hd, hsub⟩
        · exact Or.inl h
        · exact Or.inr ⟨c2, t2, List.mem_cons_of_mem _ hmem, hd, hsub⟩
      · rw [if_neg hskip]
        obtain ⟨rc, hc1, hc2, hc3, hc4, hc5⟩ := hrec c res hp hlen
        cases hrc : getClosestF dq count fuel c res with
        | none => rw [hrc] at hc1; cases hc1
        | some rc2 =>
          rw [hrc] at hc1
          injection hc1 with heq
          subst heq
          obtain ⟨r2, h1, h2, h3, h4, h5⟩ := ih rc2 (by omega) hc2 hc3
          refine ⟨r2, h1, h2, h3, by omega, ?_⟩
          intro p hpm
          rcases h5 p hpm with h | ⟨c2, t2, hmem, hd, hsub⟩
          · rcases hc5 p h with h6 | ⟨hd, hsub⟩
            · exact Or.inl h6
            · exact Or.inr ⟨c, t, List.mem_cons_self _ _, hd, hsub⟩
          · exact Or.inr ⟨c2, t2, List.mem_cons_of_mem _ hmem, hd, hsub⟩

/-- The search invariant: `get_closest` never panics for `count ≥ 1`,
keeps the buffer sorted and bounded by `count`, never shrinks it, and
only adds true `(index, distance)` pairs from the searched subtree. -/
theorem getClosestF_sound (dq : Nat → α) (count : Nat) (hcount : 1 ≤ count) :
    ∀ (fuel : Nat) (n : Node α) (res : List (Nat × α)),
      (res.Pairwise fun a b => a.2 ≤ b.2) → res.length ≤ count →
      ∃ r2, getClosestF dq count fuel n res = some r2 ∧
        (r2.Pairwise fun a b => a.2 ≤ b.2) ∧ r2.length ≤ count ∧
        res.length ≤ r2.length ∧
        ∀ p ∈ r2, p ∈ res ∨ (p.2 = dq p.1 ∧ InSubtree n p.1) := by
  intro fuel
  induction fuel with
  | zero =>
    intro n res hp hlen
    exact ⟨res, rfl, hp, hlen, le_refl _, fun p hpm => Or.inl hpm⟩
  | succ fuel ih =>
    intro n res hp hlen
    obtain ⟨res1, hs1, hsp, hslen, hsne, hsmono, hsmem⟩ :=
      getClosestStep_spec n.centroidIndex (dq n.centroidIndex) hcount hp hlen
    have hmem1 : ∀ p ∈ res1, p ∈ res ∨ (p.2 = dq p.1 ∧ InSubtree n p.1) := by
      intro p hpm
      rcases hsmem p hpm with h | rfl
      · exact Or.inl h
      · exact Or.inr ⟨rfl, InSubtree.self n⟩
    rw [getClosestF]
    cases hstep : getClosestStep res n.centroidIndex (dq n.centroidIndex) count with
    | none => rw [hstep] at hs1; cases hs1
    | some res2 =>
      dsimp only
      rw [hstep] at hs1
      injection hs1 with heq
      subst heq
      by_cases houter : n.radius < dq n.centroidIndex
      · rw [if_pos houter]
        obtain ⟨r2, h1, h2, h3, h4, h5⟩ :=
          childLoop_spec dq count hcount fuel ih
            (n.children.map fun child => (child.1, cDistEst (dq n.centroidIndex) child.2))
            res2 hsne hsp hslen
        refine ⟨r2, h1, h2, h3, by omega, ?_⟩
        intro p hpm
        rcases h5 p hpm with h | ⟨c, t, hmem, hd, hsub⟩
        · exact hmem1 p h
        · obtain ⟨child, hchild, heq⟩ := List.mem_map.mp hmem
          have hc : c = child.1 := by
            have := congrArg Prod.fst heq
            simpa using this.symm
          refine Or.inr ⟨hd, ?_⟩
          have hchild2 : (c, child.2) ∈ n.children := by
            rw [hc]
            exact hchild
          exact InSubtree.child hchild2 hsub
      · rw [if_neg houter]
        obtain ⟨r2, h1, h2, h3, h4, h5⟩ :=
          childLoop_spec dq count hcount fuel ih
            (sortByKey Prod.snd (n.children.map fun child =>
              (child.1, distMinVal (dq child.1.centroidIndex) child.1.radius)))
            res2 hsne hsp hslen
        refine ⟨r2, h1, h2, h3, by omega, ?_⟩
        intro p hpm
        rcases h5 p hpm with h | ⟨c, t, hmem, hd, hsub⟩
        · exact hmem1 p h
        · obtain ⟨child, hchild, heq⟩ := List.mem_map.mp (mem_sortByKey hmem)
          have hc : c = child.1 := by
            have := congrArg Prod.fst heq
            simpa using this.symm
          refine Or.inr ⟨hd, ?_⟩
          have hchild2 : (c, child.2) ∈ n.children := by
            rw [hc]
            exact hchild
          exact InSubtree.child hchild2 hsub

/-- C1, corrected.  The recursive tree search is *sound* but not exact:
for every built tree and every `k ≥ 1` it returns (without panicking) a
list sorted ascending by distance of at most `k` pairs, each pairing a
corpus index of the tree with its true distance to the query — but the
returned set need not equal the brute-force set even when the kernel is
symmetric, zero on the diagonal and triangular, all query distances are
distinct and `k ≤ N`: the cutoff `res[min(k, len) - 1]` prunes children
while the buffer is under-filled, and the outer-case estimate
`own - center_dist` bounds only the child's centroid, not its subtree. -/
theorem c1_search_sound_amended (dq : Nat → α) (d : Nat → Nat → α)
    (n : Nat) (maxNodeSize preCluster : Option Nat) (T : Node α)
    (_hbuild : buildTree d n maxNodeSize preCluster = some T)
    (count : Nat) (hcount : 1 ≤ count) :
    ∃ l, treeGetClosest dq T count = some l ∧
      (l.Pairwise fun a b => a.2 ≤ b.2) ∧ l.length ≤ count ∧
      ∀ p ∈ l, p.2 = dq p.1 ∧ InSubtree T p.1 := by
  obtain ⟨r2, h1, h2, h3, _, h5⟩ :=
    getClosestF_sound dq count hcount T.fuel T [] List.Pairwise.nil (by simp)
  refine ⟨r2, h1, h2, h3, ?_⟩
  intro p hpm
  rcases h5 p hpm with h | h
  · cases h
  · exact h

/-- C1, counterexample to the claim as stated.  Over the 1-D corpus
`[0, 10, -10]` with the taxicab kernel (symmetric, zero on the diagonal,
triangular — checked on all relevant points) and query coordinate `1`
(index 3), all query-to-corpus distances (`1, 9, 11`) are pairwise
distinct and `k = 3 ≤ N = 3`; the built tree is the root `0` with leaf
children `1` and `2`; yet `get_closest(q, 3)` returns only index `0`
while the brute-force scan returns `{0, 1, 2}`: at the root the search is
inner-case, the buffer holds one entry, and the finite cutoff `1` prunes
both children. -/
theorem c1_search_counterexample :
    (∀ i < 4, ∀ j < 4, exD i j = exD j i) ∧
      (∀ i < 4, exD i i = 0) ∧
      (∀ i < 4, ∀ j < 4, ∀ k < 4, exD i k ≤ exD i j + exD j k) ∧
      (exD 3 0 = 1 ∧ exD 3 1 = 9 ∧ exD 3 2 = 11) ∧
      buildTree exD 3 none none = some exTree ∧
      (treeGetClosest (exD 3) exTree 3).map (List.map Prod.fst) = some [0] ∧
      (bruteForce (exD 3) 3 3).map Prod.fst = [0, 1, 2] ∧
      (1 : Nat) ∈ ([0, 1, 2] : List Nat) ∧ (1 : Nat) ∉ ([0] : List Nat) :=
  ⟨by decide, by decide, by decide, by decide, by rfl, by decide, by decide, by decide,
    by decide⟩

/-- C1, witness: the soundness theorem applied to the built example tree
with `k = 2`. -/
theorem c1_search_sound_witness :
    ∃ l, treeGetClosest (exD 3) exTree 2 = some l ∧
      (l.Pairwise fun a b => a.2 ≤ b.2) ∧ l.length ≤ 2 ∧
      ∀ p ∈ l, p.2 = exD 3 p.1 ∧ InSubtree exTree p.1 :=
  c1_search_sound_amended (exD 3) exD 3 none none exTree (by rfl) 2 (by decide)

/-! ## Claim C4 — the coverage invariant

`listMax` facts, metric facts, facts about well-formed nodes, and the
proof that `build` produces well-formed trees. -/

theorem listMax_eq_none {xs : List α} (h : listMax xs = none) : xs = [] := by
  cases xs with
  | nil => rfl
  | cons x rest =>
    exfalso
    unfold listMax at h
    cases hr : listMax rest <;> simp [hr] at h

theorem le_listMax {xs : List α} {m x : α} (hm : listMax xs = some m) (hx : x ∈ xs) :
    x ≤ m := by
  induction xs generalizing m with
  | nil => cases hx
  | cons y ys ih =>
    unfold listMax at hm
    cases hr : listMax ys with
    | none =>
      rw [hr] at hm
      cases hm
      rcases List.mem_cons.mp hx with rfl | hx2
      · exact le_refl _
      · rw [listMax_eq_none hr] at hx2
        cases hx2
    | some m2 =>
      rw [hr] at hm
      cases hm
      rcases List.mem_cons.mp hx with rfl | hx2
      · exact le_max_left _ _
      · exact (ih hr hx2).trans (le_max_right _ _)

/-- Non-negativity of a kernel that is symmetric, zero on the diagonal
and triangular. -/
theorem metricNonneg (d : Nat → Nat → α) (hsymm : ∀ i j, d i j = d j i)
    (hzero : ∀ i, d i i = 0) (htri : ∀ i j k, d i k ≤ d i j + d j k) (i j : Nat) :
    0 ≤ d i j := by
  by_contra hneg
  push_neg at hneg
  have h := htri i j i
  rw [hzero i, hsymm j i] at h
  exact absurd (h.trans_lt (add_neg hneg hneg)) (lt_irrefl 0).elim

theorem wf_center_dist {d : Nat → Nat → α} {n : Node α} (h : WellFormed d n) :
    ∀ c cd, (c, cd) ∈ n.children → cd = d n.centroidIndex c.centroidIndex := by
  cases h with
  | mk hcd hwf hr => exact hcd

theorem wf_children {d : Nat → Nat → α} {n : Node α} (h : WellFormed d n) :
    ∀ c cd, (c, cd) ∈ n.children → WellFormed d c := by
  cases h with
  | mk hcd hwf hr => exact hwf

theorem wf_radius {d : Nat → Nat → α} {n : Node α} (h : WellFormed d n) :
    n.radius = (listMax (n.children.map getChildDistMax)).getD 0 := by
  cases h with
  | mk hcd hwf hr => exact hr

/-- A child's `center_dist + radius` is bounded by the parent's radius. -/
theorem child_dist_le_radius {d : Nat → Nat → α} {n : Node α}
    (hwf : WellFormed d n) {c : Node α} {cd : α} (hmem : (c, cd) ∈ n.children) :
    getChildDistMax (c, cd) ≤ n.radius := by
  rw [wf_radius hwf]
  have hmem2 : getChildDistMax (c, cd) ∈ n.children.map getChildDistMax :=
    List.mem_map_of_mem _ hmem
  cases h : listMax (n.children.map getChildDistMax) with
  | none =>
    rw [listMax_eq_none h] at hmem2
    cases hmem2
  | some m => simpa using le_listMax h hmem2

/-- The radius of a well-formed node is non-negative for a metric
kernel. -/
theorem wf_radius_nonneg (d : Nat → Nat → α) (hsymm : ∀ i j, d i j = d j i)
    (hzero : ∀ i, d i i = 0) (htri : ∀ i j k, d i k ≤ d i j + d j k)
    {n : Node α} (h : WellFormed d n) : 0 ≤ n.radius := by
  induction h with
  | mk hcd hwf hr ih =>
    rename_i cix radius cnt cs
    show (0 : α) ≤ radius
    rw [hr]
    cases cs with
    | nil => simp [listMax]
    | cons e rest =>
      cases hm : listMax ((e :: rest).map getChildDistMax) with
      | none =>
        exfalso
        have := listMax_eq_none hm
        simp at this
      | some m =>
        have he : getChildDistMax e ≤ m := le_listMax hm (by simp)
        have h1 : 0 ≤ e.2 := hcd e.1 e.2 (by simp) ▸ metricNonneg d hsymm hzero htri _ _
        have h2 : (0 : α) ≤ e.1.radius := ih e.1 e.2 (by simp)
        have h3 : (0 : α) ≤ getChildDistMax e := by
          unfold getChildDistMax distCombine
          exact add_nonneg h1 h2
        simpa [hm] using h3.trans he

/-- Coverage: for a metric kernel, every corpus index in the subtree of a
well-formed node lies within its radius of the node's centroid. -/
theorem wf_coverage (d : Nat → Nat → α) (hsymm : ∀ i j, d i j = d j i)
    (hzero : ∀ i, d i i = 0) (htri : ∀ i j k, d i k ≤ d i j + d j k)
    {n : Node α} {x : Nat} (hin : InSubtree n x) (hwf : WellFormed d n) :
    d n.centroidIndex x ≤ n.radius := by
  induction hin with
  | self m =>
    rw [hzero]
    exact wf_radius_nonneg d hsymm hzero htri hwf
  | child hmem hsub ih =>
    rename_i m c cd y
    have hcd := wf_center_dist hwf c cd hmem
    have hcwf := wf_children hwf c cd hmem
    calc d m.centroidIndex y ≤ d m.centroidIndex c.centroidIndex + d c.centroidIndex y :=
          htri _ _ _
      _ ≤ d m.centroidIndex c.centroidIndex + c.radius := by
          exact add_le_add_left (ih hcwf) _
      _ = getChildDistMax (c, cd) := by rw [hcd]; rfl
      _ ≤ m.radius := child_dist_le_radius hwf hmem

/-- Well-formedness restricts to every node of the subtree. -/
theorem subnode_wf {d : Nat → Nat → α} {T m : Node α} (h : SubNode m T)
    (hT : WellFormed d T) : WellFormed d m := by
  induction h with
  | refl => exact hT
  | child hmem hsub ih => exact ih (wf_children hT _ _ hmem)

theorem mem_insertByKeyDesc {β : Type} {key : β → α} {x y : β} {l : List β} :
    x ∈ insertByKeyDesc key y l ↔ x = y ∨ x ∈ l := by
  induction l with
  | nil => simp [insertByKeyDesc]
  | cons z zs ih =>
    unfold insertByKeyDesc
    by_cases h : key z ≤ key y
    · simp [h]
    · rw [if_neg h]
      simp only [List.mem_cons, ih]
      tauto

theorem mem_sortByKeyDesc {β : Type} {key : β → α} {x : β} {l : List β} :
    x ∈ sortByKeyDesc key l ↔ x ∈ l := by
  induction l with
  | nil => simp [sortByKeyDesc]
  | cons z zs ih =>
    unfold sortByKeyDesc
    rw [mem_insertByKeyDesc]
    simp [ih]

theorem addChild_centroidIndex (d : Nat → Nat → α) (n child : Node α) :
    (addChild d n child).centroidIndex = n.centroidIndex := by
  cases n
  rfl

theorem addChild_children {d : Nat → Nat → α} {n child : Node α} {c : Node α} {cd : α}
    (h : (c, cd) ∈ (addChild d n child).children) :
    (c, cd) ∈ n.children ∨ (c = child ∧ cd = d n.centroidIndex child.centroidIndex) := by
  cases n with
  | mk cix r cnt cs =>
    simp only [addChild, Node.children, mem_sortByKeyDesc, List.mem_append,
      List.mem_singleton, Prod.mk.injEq] at h
    rcases h with h | ⟨h1, h2⟩
    · exact Or.inl h
    · exact Or.inr ⟨h1, h2⟩

/-- Folding `add_child` over a list of well-formed children preserves the
centroid and the children invariant. -/
theorem foldl_addChild_invariant {γ : Type} (d : Nat → Nat → α) (g : γ → Node α)
    (items : List γ) (hg : ∀ it ∈ items, WellFormed d (g it)) :
    ∀ acc : Node α,
      (∀ c cd, (c, cd) ∈ acc.children → cd = d acc.centroidIndex c.centroidIndex) →
      (∀ c cd, (c, cd) ∈ acc.children → WellFormed d c) →
      (items.foldl (fun nd it => addChild d nd (g it)) acc).centroidIndex =
          acc.centroidIndex ∧
        (∀ c cd, (c, cd) ∈ (items.foldl (fun nd it => addChild d nd (g it)) acc).children →
          cd = d acc.centroidIndex c.centroidIndex) ∧
        (∀ c cd, (c, cd) ∈ (items.foldl (fun nd it => addChild d nd (g it)) acc).children →
          WellFormed d c) := by
  induction items with
  | nil => intro acc hcd hwf; exact ⟨rfl, hcd, hwf⟩
  | cons it rest ih =>
    intro acc hcd hwf
    have hgit : WellFormed d (g it) := hg it (by simp)
    have hrest : ∀ x ∈ rest, WellFormed d (g x) := fun x hx => hg x (by simp [hx])
    have hcd2 : ∀ c cd, (c, cd) ∈ (addChild d acc (g it)).children →
        cd = d (addChild d acc (g it)).centroidIndex c.centroidIndex := by
      intro c cd hm
      rw [addChild_centroidIndex]
      rcases addChild_children hm with h | ⟨rfl, rfl⟩
      · exact hcd c cd h
      · rfl
    have hwf2 : ∀ c cd, (c, cd) ∈ (addChild d acc (g it)).children → WellFormed d c := by
      intro c cd hm
      rcases addChild_children hm with h | ⟨rfl, _⟩
      · exact hwf c cd h
      · exact hgit
    have := ih hrest (addChild d acc (g it)) hcd2 hwf2
    simpa [addChild_centroidIndex] using this

theorem computeRadius_wf {d : Nat → Nat → α} {n : Node α}
    (hcd : ∀ c cd, (c, cd) ∈ n.children → cd = d n.centroidIndex c.centroidIndex)
    (hwf : ∀ c cd, (c, cd) ∈ n.children → WellFormed d c) :
    WellFormed d (computeRadius n) := by
  cases n with
  | mk cix r cnt cs => exact WellFormed.mk hcd hwf rfl

/-- `build_level` always produces a well-formed node. -/
theorem buildLevel_wf (d : Nat → Nat → α) (maxNodeSize : Nat) (preCluster : Option Nat) :
    ∀ (fuel rootIx : Nat) (ixs : List Nat),
      WellFormed d (buildLevel d maxNodeSize preCluster fuel rootIx ixs) := by
  intro fuel
  induction fuel with
  | zero =>
    intro rootIx ixs
    exact WellFormed.mk (by simp [Node.new, Node.children]) (by simp [Node.new, Node.children]) rfl
  | succ fuel ih =>
    intro rootIx ixs
    rw [buildLevel]
    by_cases hb : numK maxNodeSize ixs.length = 1 ∨ ixs.length ≤ numK maxNodeSize ixs.length
    · rw [if_pos hb]
      have base1 : ∀ c cd, (c, cd) ∈ (Node.new α rootIx).children →
          cd = d (Node.new α rootIx).centroidIndex c.centroidIndex := by
        simp [Node.new, Node.children]
      have base2 : ∀ c cd, (c, cd) ∈ (Node.new α rootIx).children → WellFormed d c := by
        simp [Node.new, Node.children]
      have hg : ∀ ix ∈ ixs, WellFormed d (computeRadius (Node.new α ix)) := by
        intro ix _
        exact computeRadius_wf (by simp [Node.new, Node.children])
          (by simp [Node.new, Node.children])
      obtain ⟨hc, hcd, hwf⟩ := foldl_addChild_invariant d _ ixs hg (Node.new α rootIx) base1 base2
      refine computeRadius_wf ?_ ?_
      · intro c cd hm
        rw [hc]
        exact hcd c cd hm
      · exact hwf
    · rw [if_neg hb]
      have hg : ∀ cluster ∈ kmedoid d ixs
            (preClusterSeed d preCluster ixs (numK maxNodeSize ixs.length))
            (numK maxNodeSize ixs.length),
          WellFormed d (buildLevel d maxNodeSize preCluster fuel cluster.1
            (removeIx cluster.2 cluster.1)) := by
        intro cluster _
        exact ih cluster.1 (removeIx cluster.2 cluster.1)
      have base1 : ∀ c cd, (c, cd) ∈ (Node.new α rootIx).children →
          cd = d (Node.new α rootIx).centroidIndex c.centroidIndex := by
        simp [Node.new, Node.children]
      have base2 : ∀ c cd, (c, cd) ∈ (Node.new α rootIx).children → WellFormed d c := by
        simp [Node.new, Node.children]
      obtain ⟨hc, hcd, hwf⟩ := foldl_addChild_invariant d _ _ hg (Node.new α rootIx) base1 base2
      refine computeRadius_wf ?_ ?_
      · intro c cd hm
        rw [hc]
        exact hcd c cd hm
      · exact hwf

/-- `build` produces a well-formed tree. -/
theorem buildTree_wf {d : Nat → Nat → α} {n : Nat} {maxNodeSize preCluster : Option Nat}
    {T : Node α} (h : buildTree d n maxNodeSize preCluster = some T) :
    WellFormed d T := by
  unfold buildTree at h
  dsimp only at h
  cases hc : centroid d (α := α) (List.range n) with
  | none => rw [hc] at h; cases h
  | some rootIx =>
    rw [hc] at h
    cases h
    exact buildLevel_wf d _ _ _ _ _

/-- C4, confirmed.  For every tree produced by `build` with a kernel that
is symmetric, zero on the diagonal and triangular, every node `m` of the
tree and every corpus index `x` in the subtree rooted at `m` satisfy
`d(centroid(m), x) ≤ radius(m)`, where the radius stored by
`compute_radius` is the maximum over children of
`center_dist + child.radius` and leaves have radius 0. -/
theorem c4_coverage (d : Nat → Nat → α) (hsymm : ∀ i j, d i j = d j i)
    (hzero : ∀ i, d i i = 0) (htri : ∀ i j k, d i k ≤ d i j + d j k)
    (n : Nat) (maxNodeSize preCluster : Option Nat) (T : Node α)
    (hbuild : buildTree d n maxNodeSize preCluster = some T) :
    ∀ (m : Node α) (x : Nat), SubNode m T → InSubtree m x →
      d m.centroidIndex x ≤ m.radius := by
  intro m x hsub hin
  exact wf_coverage d hsymm hzero htri hin (subnode_wf hsub (buildTree_wf hbuild))

/-- C4, witness: coverage applied to the tree built over the 1-D corpus
`[0, 10, -10]`: the leaf `1` lies within the root's radius. -/
theorem c4_coverage_witness : exD 0 1 ≤ (10 : ℤ) :=
  c4_coverage exD (fun i j => lineDist_symm exCoords i j)
    (fun i => lineDist_self exCoords i)
    (fun i j k => lineDist_triangle exCoords i j k)
    3 none none exTree rfl exTree 1 (SubNode.refl exTree)
    (InSubtree.child
      (by simp [exTree, Node.children] :
        (Node.mk 1 0 1 [], (10 : ℤ)) ∈ exTree.children)
      (InSubtree.self (Node.mk 1 0 1 [])))

/-- C9, witness: the termination theorem applied to the concrete kernel
`exD` over candidates `[0, 1, 2]`: cap hit at `rounds = 1` returns the
round's assignment, and the general form produces an assignment. -/
theorem c9_kmedoid_terminates_witness :
    kmedoidLoop exD [0, 1, 2] 1 [[0, 1]] false = assignRound exD [0, 1, 2] [0, 1] ∧
      ∃ cs : List Nat, kmedoidLoop exD [0, 1, 2] 1000 [[0, 1]] false =
        assignRound exD [0, 1, 2] cs :=
  ⟨(c9_kmedoid_terminates exD [0, 1, 2]).2.1 1 [[0, 1]] false (by decide),
    (c9_kmedoid_terminates exD [0, 1, 2]).2.2.1 1000 [[0, 1]] false⟩

end Fann
